import Mathlib

/-!
Verification of the configuration-artifact extraction engine in
`tools/Generate-ConfigurationDocumentation.py`.

Strings of the host language are modelled as `List Char` (sequences of
Unicode scalar values).  JSON documents are modelled by the closed value
type `JValue` (with explicit spine types `JArr` / `JObj` for arrays and
objects, an object being an ordered association list as produced by the
host JSON parser).  A host float is carried together with its `str(...)`
rendering, since no claim depends on float formatting.
-/

/-- The character `\x7b` (left curly brace). -/
def lbrace : Char := Char.ofNat 123

/-- The character `\x7d` (right curly brace). -/
def rbrace : Char := Char.ofNat 125

/-- The character `'` (apostrophe). -/
def apos : Char := Char.ofNat 39

/-- Decimal rendering of a natural number, as in `str(n)`. -/
def natStr (n : Nat) : List Char := (Nat.repr n).data

/-- Decimal rendering of an integer, as in `str(n)` for a host int. -/
def intStr (n : Int) : List Char := (Int.repr n).data

/-- `s.lower()`.  The source lowercases full Unicode; the claims only ever
exercise ASCII, where `Char.toLower` agrees with the host. -/
def toLowerList (s : List Char) : List Char := s.map Char.toLower

/-- `s.split('.')[-1]`: everything after the last dot (the whole string
when there is no dot). -/
def lastSegment (s : List Char) : List Char :=
  (s.reverse.takeWhile (fun c => !(c = '.'))).reverse

/-- `s.strip()` restricted to ASCII whitespace (the claims never exercise
exotic Unicode whitespace). -/
def stripWs (s : List Char) : List Char :=
  ((s.dropWhile Char.isWhitespace).reverse.dropWhile Char.isWhitespace).reverse

/-- Helper for `hasPlaceholder`: after an opening `\x7b\x7b`, does a
closing `\x7d\x7d` occur with no newline strictly before it?  (`.` in the
source regex does not match a newline.) -/
def closesAhead : List Char → Bool
  | c1 :: c2 :: rest =>
    if c1 = rbrace && c2 = rbrace then true
    else if c1 = '\n' then false
    else closesAhead (c2 :: rest)
  | _ => false

/-- `re.search(r"\x7b\x7b.*?\x7d\x7d", s)` is not `None`: somewhere in `s`
an opening double brace is followed, with no intervening newline, by a
closing double brace. -/
def hasPlaceholder : List Char → Bool
  | c1 :: c2 :: rest =>
    (if c1 = lbrace && c2 = lbrace then closesAhead rest else false)
      || hasPlaceholder (c2 :: rest)
  | _ => false

/-- The string branch of `simplify_value`: strings longer than 120
characters become their first 117 characters followed by `"..."`. -/
def strTrunc (s : List Char) : List Char :=
  if 120 < s.length then s.take 117 ++ ("...").data else s

mutual
/-- A parsed JSON document value (host side: None, bool, int, float, str,
list, dict).  A float carries its host `str()` rendering `r`. -/
inductive JValue where
  | null
  | bool (b : Bool)
  | num (n : Int)
  | float (r : List Char)
  | str (s : List Char)
  | arr (xs : JArr)
  | obj (fs : JObj)

/-- Spine of a JSON array. -/
inductive JArr where
  | nil
  | cons (hd : JValue) (tl : JArr)

/-- Spine of a JSON object: an ordered association list (the host parser
keeps at most one binding per key, the last one written). -/
inductive JObj where
  | nil
  | cons (k : List Char) (v : JValue) (tl : JObj)
end

/-- `v is None`. -/
def JValue.isNull : JValue → Bool
  | .null => true
  | _ => false

/-- Build an array spine from a list. -/
def JArr.ofList : List JValue → JArr
  | [] => .nil
  | v :: rest => .cons v (JArr.ofList rest)

/-- `xs[i]`, as an option. -/
def JArr.get? : JArr → Nat → Option JValue
  | .nil, _ => none
  | .cons v _, 0 => some v
  | .cons _ tl, n + 1 => JArr.get? tl n

/-- `len(xs)` for an array. -/
def JArr.length : JArr → Nat
  | .nil => 0
  | .cons _ tl => 1 + JArr.length tl

/-- `d.get(k)`: the first (hence only) binding of `k`. -/
def JObj.lookup : JObj → List Char → Option JValue
  | .nil, _ => none
  | .cons k' v tl, k => if k' = k then some v else JObj.lookup tl k

/-- `len(d)` for an object. -/
def JObj.length : JObj → Nat
  | .nil => 0
  | .cons _ _ tl => 1 + JObj.length tl

/-- One hexadecimal digit, lowercase. -/
def hexDigit (n : Nat) : Char :=
  if n < 10 then Char.ofNat (48 + n) else Char.ofNat (87 + n)

/-- `\uXXXX` escape for a code unit. -/
def uEscape (n : Nat) : List Char :=
  ['\\', 'u', hexDigit (n / 4096 % 16), hexDigit (n / 256 % 16),
   hexDigit (n / 16 % 16), hexDigit (n % 16)]

/-- Escaping of one character in `json.dumps` (default `ensure_ascii`):
quote, backslash and the short control escapes, `\uXXXX` for other control
or non-ASCII characters, surrogate pairs beyond the BMP. -/
def jsonEscapeChar (c : Char) : List Char :=
  if c = '"' then ['\\', '"']
  else if c = '\\' then ['\\', '\\']
  else if c = '\n' then ['\\', 'n']
  else if c = '\r' then ['\\', 'r']
  else if c = '\t' then ['\\', 't']
  else if c.toNat = 8 then ['\\', 'b']
  else if c.toNat = 12 then ['\\', 'f']
  else if c.toNat < 32 then uEscape c.toNat
  else if c.toNat < 127 then [c]
  else if c.toNat < 65536 then uEscape c.toNat
  else uEscape (55296 + (c.toNat - 65536) / 1024) ++
       uEscape (56320 + (c.toNat - 65536) % 1024)

/-- A JSON string literal as rendered by `json.dumps`. -/
def jsonQuote (s : List Char) : List Char :=
  '"' :: (s.flatMap jsonEscapeChar) ++ ['"']

mutual
/-- `json.dumps(v)` with the default separators `", "` and `": "`. -/
def jsonDumps : JValue → List Char
  | .null => ("null").data
  | .bool b => if b then ("true").data else ("false").data
  | .num n => intStr n
  | .float r => r
  | .str s => jsonQuote s
  | .arr xs => '[' :: jsonDumpsArr xs ++ [']']
  | .obj fs => lbrace :: jsonDumpsObj fs ++ [rbrace]

/-- Comma-separated renderings of the elements of an array. -/
def jsonDumpsArr : JArr → List Char
  | .nil => []
  | .cons v rest =>
    jsonDumps v ++ (match rest with | .nil => [] | _ => (", ").data)
      ++ jsonDumpsArr rest

/-- Comma-separated `"key": value` renderings of an object. -/
def jsonDumpsObj : JObj → List Char
  | .nil => []
  | .cons k v rest =>
    jsonQuote k ++ (": ").data ++ jsonDumps v
      ++ (match rest with | .nil => [] | _ => (", ").data)
      ++ jsonDumpsObj rest
end

/-- Escaping of one character in the host `repr` of a string (backslash,
quote and the common control escapes; `repr`'s treatment of other
non-printable characters is not exercised by any claim). -/
def pyEscapeChar (c : Char) : List Char :=
  if c = '\\' then ['\\', '\\']
  else if c = apos then ['\\', apos]
  else if c = '\n' then ['\\', 'n']
  else if c = '\r' then ['\\', 'r']
  else if c = '\t' then ['\\', 't']
  else [c]

/-- The host `repr` of a string (single-quoted). -/
def pyQuote (s : List Char) : List Char :=
  apos :: (s.flatMap pyEscapeChar) ++ [apos]

mutual
/-- The host `repr(v)` of a parsed JSON value. -/
def pyRepr : JValue → List Char
  | .null => ("None").data
  | .bool b => if b then ("True").data else ("False").data
  | .num n => intStr n
  | .float r => r
  | .str s => pyQuote s
  | .arr xs => '[' :: pyReprArr xs ++ [']']
  | .obj fs => lbrace :: pyReprObj fs ++ [rbrace]

/-- Comma-separated `repr`s of the elements of a list. -/
def pyReprArr : JArr → List Char
  | .nil => []
  | .cons v rest =>
    pyRepr v ++ (match rest with | .nil => [] | _ => (", ").data)
      ++ pyReprArr rest

/-- Comma-separated `key: value` `repr`s of a dict. -/
def pyReprObj : JObj → List Char
  | .nil => []
  | .cons k v rest =>
    pyQuote k ++ (": ").data ++ pyRepr v
      ++ (match rest with | .nil => [] | _ => (", ").data)
      ++ pyReprObj rest
end

/-- The host `str(v)` (as interpolated by an f-string): identity on
strings, `repr` on containers, decimal/`None`/`True`/`False` on the other
scalars. -/
def pyStr (v : JValue) : List Char :=
  match v with
  | .null => ("None").data
  | .bool b => if b then ("True").data else ("False").data
  | .num n => intStr n
  | .float r => r
  | .str s => s
  | v => pyRepr v

/-- `simplify_value(val)`: `None` to `""`, numbers (booleans included, a
host bool being numeric) to their `str` form, strings truncated past 120
characters, any other shape to its `json.dumps` encoding.  The result is
kept in the dynamic value type `JValue`, as in the untyped source. -/
def simplify_value : JValue → JValue
  | .null => .str []
  | .bool b => .str (if b then ("True").data else ("False").data)
  | .num n => .str (intStr n)
  | .float r => .str r
  | .str s => .str (strTrunc s)
  | .arr xs => .str (jsonDumps (.arr xs))
  | .obj fs => .str (jsonDumps (.obj fs))

/-- One iteration of the boolean-suffix loop of `simplify_display_value`
for suffix `suf` mapped to `mapped`: if the lowercased value ends in
`suf`, and the preceding portion passes the containment check against
`key` or equals `key`, the iteration returns `mapped`. -/
def tryBoolSuffix (key val suf mapped : List Char) : Option (List Char) :=
  if List.isSuffixOf suf (toLowerList val) then
    if List.isPrefixOf (lastSegment (val.take (val.length - suf.length))) key
        || List.isSuffixOf (lastSegment key) (val.take (val.length - suf.length))
    then some mapped
    else if val.take (val.length - suf.length) = key then some mapped
    else none
  else none

/-- The `BOOLEAN_SUFFIXES` loop, `"_true"` inspected before `"_false"`
(dict insertion order). -/
def boolSuffixLoop (key val : List Char) : Option (List Char) :=
  match tryBoolSuffix key val (("_true").data) (("True").data) with
  | some m => some m
  | none => tryBoolSuffix key val (("_false").data) (("False").data)

/-- The string-processing tail of `simplify_display_value`, applied to the
already-normalized string `val`: keep placeholder-bearing values verbatim,
else try the boolean-suffix mapping, else strip a leading `key + "_"`,
else strip a leading `key` plus following underscores when a non-empty
remainder is left, else return `val`. -/
def stripDisplay (key val : List Char) : List Char :=
  if hasPlaceholder val then val
  else
    match boolSuffixLoop key val with
    | some m => m
    | none =>
      if List.isPrefixOf (key ++ ['_']) val then val.drop (key.length + 1)
      else if List.isPrefixOf key val then
        let remainder := (val.drop key.length).dropWhile (fun c => c = '_')
        if remainder.isEmpty then val else remainder
      else val

/-- `simplify_display_value(key, raw_val)`: normalize with
`simplify_value` first; a non-string normalization result is returned
unchanged (the source's early return), a string goes through
`stripDisplay`. -/
def simplify_display_value (key : List Char) (raw : JValue) : JValue :=
  match simplify_value raw with
  | .str val => .str (stripDisplay key val)
  | v => v

/-! ## TreeWalker: `extract_settings_catalog` -/

/-- An emitted setting: `(key, value)` where the value is whatever
`simplify_display_value` returned (always a string, see
`simplify_display_value_total`). -/
abbrev Setting := (List Char) × JValue

/-- `f"[{idx}]"`, the bracketed index appended to a collection entry. -/
def bracketIdx (idx : Nat) : List Char := '[' :: natStr idx ++ [']']

/-- The choice-value carrier: `node.get("choiceSettingValue")` must be a
dict whose `"value"` is present and not `None`. -/
def choicePart (fs : JObj) (s : List Char) : List Setting :=
  match fs.lookup (("choiceSettingValue").data) with
  | some (.obj cb) =>
    match cb.lookup (("value").data) with
    | some v => if v.isNull then [] else [(s, simplify_display_value s v)]
    | none => []
  | _ => []

/-- The scalar-value carrier: `node.get("simpleSettingValue")` likewise. -/
def simplePart (fs : JObj) (s : List Char) : List Setting :=
  match fs.lookup (("simpleSettingValue").data) with
  | some (.obj sb) =>
    match sb.lookup (("value").data) with
    | some v => if v.isNull then [] else [(s, simplify_display_value s v)]
    | none => []
  | _ => []

/-- Collection entries, each dict entry with a non-`None` `"value"`
emitted under `s` suffixed by its zero-based bracketed position `idx`. -/
def collItems (s : List Char) : JArr → Nat → List Setting
  | .nil, _ => []
  | .cons item rest, idx =>
    (match item with
     | .obj ef =>
       match ef.lookup (("value").data) with
       | some v =>
         if v.isNull then []
         else [(s ++ bracketIdx idx, simplify_display_value s v)]
       | none => []
     | _ => []) ++ collItems s rest (idx + 1)

/-- The collection carrier: `node.get("simpleSettingCollectionValue")`
must be a list. -/
def collectionPart (fs : JObj) (s : List Char) : List Setting :=
  match fs.lookup (("simpleSettingCollectionValue").data) with
  | some (.arr items) => collItems s items 0
  | _ => []

/-- Carrier inspection of one mapping node: nothing unless the node holds
a non-empty string `settingDefinitionId` (a falsy identifier is skipped;
a non-string identifier is not a usable key — the source would fault on
it — and contributes nothing); otherwise the three carriers are inspected
independently, in source order. -/
def carrierPairs (fs : JObj) : List Setting :=
  match fs.lookup (("settingDefinitionId").data) with
  | some (.str s) =>
    if s = [] then []
    else choicePart fs s ++ simplePart fs s ++ collectionPart fs s
  | _ => []

mutual
/-- The recursive `walk`: a mapping contributes its carrier pairs and then
is always descended into (every field value), a sequence is walked
element-wise, scalars terminate. -/
def walk : JValue → List Setting
  | .obj fs => carrierPairs fs ++ walkObj fs
  | .arr xs => walkArr xs
  | _ => []

/-- Walk the elements of a sequence in order. -/
def walkArr : JArr → List Setting
  | .nil => []
  | .cons v rest => walk v ++ walkArr rest

/-- Walk the field values of a mapping in order. -/
def walkObj : JObj → List Setting
  | .nil => []
  | .cons _ v rest => walk v ++ walkObj rest
end

/-- `extract_settings_catalog(json_doc)`: walk
`json_doc.get("settings", [])`. -/
def extract_settings_catalog (doc : JObj) : List Setting :=
  walk (match doc.lookup (("settings").data) with
        | some v => v
        | none => .arr .nil)

/-! ## CompliancePolicyExtractor: `extract_compliance_policy` -/

/-- The fixed `IGNORE_KEYS` metadata set. -/
def ecpIgnoreKeys : List (List Char) :=
  [("@odata.type").data, ("displayName").data, ("description").data,
   ("id").data, ("createdDateTime").data, ("lastModifiedDateTime").data,
   ("version").data, ("roleScopeTagIds").data]

/-- The special-cased field name `scheduledActionsForRule`. -/
def sAFRKey : List Char := ("scheduledActionsForRule").data

/-- One pair per dict action configuration:
`(key.ruleName.action_cidx, "actionType (grace: Gh)")`, with defaults
`"unknown"` and `0`.  Non-dict entries contribute nothing. -/
def actionPairs (key ruleName : List Char) : JArr → Nat → List Setting
  | .nil, _ => []
  | .cons c rest, cidx =>
    (match c with
     | .obj cf =>
       let aTy := match cf.lookup (("actionType").data) with
         | some v => pyStr v
         | none => ("unknown").data
       let gr := match cf.lookup (("gracePeriodHours").data) with
         | some v => pyStr v
         | none => ("0").data
       [(key ++ '.' :: ruleName ++ (".action_").data ++ natStr cidx,
         .str (aTy ++ (" (grace: ").data ++ gr ++ ("h)").data))]
     | _ => []) ++ actionPairs key ruleName rest (cidx + 1)

/-- Per-rule processing: dict rules only; the rule name defaults to
`rule_idx`; the action-configuration list defaults to `[]`; a truthy
(non-empty) configuration value yields the `actionCount` summary first
and, when it is a list, the per-action pairs (enumerating a non-list
iterable yields non-dict elements, hence no action pairs; a truthy
non-iterable would fault in the source and is modelled as contributing
nothing). -/
def rulePairs (key : List Char) : JArr → Nat → List Setting
  | .nil, _ => []
  | .cons r rest, idx =>
    (match r with
     | .obj rf =>
       let ruleName := match rf.lookup (("ruleName").data) with
         | some v => pyStr v
         | none => ("rule_").data ++ natStr idx
       match (rf.lookup (("scheduledActionConfigurations").data)).getD (.arr .nil) with
       | .arr cs =>
         (match cs with
          | .nil => []
          | _ =>
            (key ++ '.' :: ruleName ++ (".actionCount").data,
             .str (natStr (JArr.length cs))) :: actionPairs key ruleName cs 0)
       | .obj cfs =>
         (match cfs with
          | .nil => []
          | _ => [(key ++ '.' :: ruleName ++ (".actionCount").data,
                   .str (natStr (JObj.length cfs)))])
       | .str cstr =>
         (match cstr with
          | [] => []
          | _ => [(key ++ '.' :: ruleName ++ (".actionCount").data,
                   .str (natStr cstr.length))])
       | _ => []
     | _ => []) ++ rulePairs key rest (idx + 1)

/-- `extract_compliance_policy(json_doc)`: iterate the flat field map in
order, skip the metadata keys, special-case a list-valued
`scheduledActionsForRule`, pass everything else through
`simplify_value`. -/
def extract_compliance_policy : JObj → List Setting
  | .nil => []
  | .cons k v rest =>
    (if k ∈ ecpIgnoreKeys then []
     else
       match v with
       | .arr rules =>
         if k = sAFRKey then rulePairs k rules 0
         else [(k, simplify_value (.arr rules))]
       | _ => [(k, simplify_value v)]) ++ extract_compliance_policy rest

/-! ## ArtifactClassifier: `classify_type` -/

/-- `'a' <= c <= 'z'`, the character class `[a-z]` of the source regex. -/
def isLowerAZ (c : Char) : Bool := decide ('a' ≤ c) && decide (c ≤ 'z')

/-- `re.match(r"([a-z]\x7b3\x7d)-([a-z]\x7b3\x7d)-(\d\x7b3\x7d)", name)`,
anchored at the start, returning the first group.  `\d` is modelled as the
ASCII digits (the host also accepts other Unicode decimal digits; no
artifact name exercises those). -/
def refMatch : List Char → Option (List Char)
  | a :: b :: c :: x :: d :: e :: f :: y :: g :: h :: i :: _ =>
    if isLowerAZ a && isLowerAZ b && isLowerAZ c && decide (x = '-') &&
       isLowerAZ d && isLowerAZ e && isLowerAZ f && decide (y = '-') &&
       g.isDigit && h.isDigit && i.isDigit
    then some [a, b, c] else none
  | _ => none

/-- The fixed prefix-to-classification mapping, defaulting to
`"Unknown"`. -/
def typeMapping (p : List Char) : List Char :=
  if p = ("pol").data then ("Policy").data
  else if p = ("cfg").data then ("CustomConfig").data
  else if p = ("cmp").data then ("Compliance").data
  else if p = ("scr").data then ("Script").data
  else if p = ("cat").data then ("CustomAttribute").data
  else if p = ("app").data then ("Package").data
  else ("Unknown").data

/-- The prefixes the mapping knows. -/
def knownPrefixes : List (List Char) :=
  [("pol").data, ("cfg").data, ("cmp").data, ("scr").data,
   ("cat").data, ("app").data]

/-- `classify_type(path)` on the file name: mapping of the matched prefix
when the reference pattern matches, else `"CustomConfig"` for
`.mobileconfig` names and `"Policy"` for everything else. -/
def classify_type (name : List Char) : List Char :=
  match refMatch name with
  | some p => typeMapping p
  | none =>
    if List.isSuffixOf ((".mobileconfig").data) name
    then ("CustomConfig").data
    else ("Policy").data

/-! ## ArtifactAggregator: entries, manifest processing, final merge -/

/-- One aggregated artifact record, as assembled by `build_entries`
(`etype` is the record's `type` field). -/
structure Entry where
  ref : List Char
  etype : List Char
  relpath : List Char
  nameM : Option (List Char)
  descM : Option (List Char)
  settings : List Setting
  count : Nat

/-- The identity triple `(ref, type, relpath)` used for deduplication. -/
def entryKey (e : Entry) : (List Char) × (List Char) × (List Char) :=
  (e.ref, e.etype, e.relpath)

/-- The deduplication pass of `build_entries`: keep an entry only when its
identity triple has not been seen yet. -/
def dedupEntries (seen : List ((List Char) × (List Char) × (List Char))) :
    List Entry → List Entry
  | [] => []
  | e :: rest =>
    if entryKey e ∈ seen then dedupEntries seen rest
    else e :: dedupEntries (entryKey e :: seen) rest

/-- Host string comparison: lexicographic on the code-point sequences. -/
def leChars : List Char → List Char → Bool
  | [], _ => true
  | _ :: _, [] => false
  | a :: as, b :: bs =>
    if a < b then true else if b < a then false else leChars as bs

/-- The final merge of `build_entries`: deduplicate by identity triple,
then sort ascending by `ref` (`list.sort` with the `ref` key; both the
host sort and insertion sort are stable). -/
def finalMerge (entries : List Entry) : List Entry :=
  List.insertionSort (fun a b => leChars a.ref b.ref = true)
    (dedupEntries [] entries)

/-- A parsed manifest XML element: tag, text content, child elements. -/
inductive XNode where
  | mk (tag : List Char) (txt : Option (List Char)) (children : List XNode)

/-- The element's tag. -/
def XNode.tagOf : XNode → List Char
  | .mk t _ _ => t

/-- The element's text content (`None` for an empty element). -/
def XNode.textOf : XNode → Option (List Char)
  | .mk _ tx _ => tx

/-- The element's direct children. -/
def XNode.childrenOf : XNode → List XNode
  | .mk _ _ cs => cs

/-- `root.find(tag)`: the first direct child with the given tag. -/
def XNode.findChild (n : XNode) (t : List Char) : Option XNode :=
  (XNode.childrenOf n).find? (fun c => decide (XNode.tagOf c = t))

/-- The manifest sentinel root tag. -/
def manifestTag : List Char := ("MacIntuneManifest").data

/-- The artifact types whose manifests pointing at `.json` sources are
skipped. -/
def jsonSkipTypes : List (List Char) :=
  [("Policy").data, ("CustomConfig").data, ("Compliance").data]

/-- The manifest-only artifact kinds, which alone receive subtree
settings. -/
def manifestOnlyTypes : List (List Char) :=
  [("Script").data, ("Package").data, ("CustomAttribute").data]

/-- Subtree flattening for the manifest-only kinds: the named subtree (its
tag equals the artifact type) has its immediate children with truthy text
flattened into `(tag, stripped text)` pairs; other types get no
settings. -/
def subtreeSettings (root : XNode) (artifactType : List Char) : List Setting :=
  if artifactType ∈ manifestOnlyTypes then
    match XNode.findChild root artifactType with
    | some subtree =>
      (XNode.childrenOf subtree).filterMap (fun c =>
        match XNode.textOf c with
        | some t => if t = [] then none
                    else some (XNode.tagOf c, JValue.str (stripWs t))
        | none => none)
    | none => []
  else []

/-- `root.find('Name')` guarded by presence and truthy text. -/
def nameMeta (root : XNode) : Option (List Char) :=
  match XNode.findChild root (("Name").data) with
  | some el =>
    match XNode.textOf el with
    | some t => if t = [] then none else some (stripWs t)
    | none => none
  | none => none

/-- `root.find('Description')` likewise, defaulting to the empty
string. -/
def descMeta (root : XNode) : List Char :=
  match XNode.findChild root (("Description").data) with
  | some el =>
    match XNode.textOf el with
    | some t => if t = [] then [] else stripWs t
    | none => []
  | none => []

/-- `p.name` for a relative path: the part after the last slash. -/
def baseName (p : List Char) : List Char :=
  (p.reverse.takeWhile (fun c => !(c = '/'))).reverse

/-- `p.stem`: the base name without its last dot-suffix (a base name whose
only dot is leading keeps it). -/
def pathStem (p : List Char) : List Char :=
  let b := baseName p
  match (b.reverse.dropWhile (fun c => !(c = '.'))) with
  | [] => b
  | _ :: restRev => if restRev = [] then b else restRev.reverse

/-- One iteration of the standalone-manifest loop of `build_entries`:
`srcExists` abstracts the filesystem probe for the declared source,
`mStem` is the stem of the manifest file itself, `entries` the records
accumulated so far.  Returns the appended record, or `none` when the
manifest is skipped (wrong root tag, missing `Type`/`SourceFile` element
or text — the latter faults and is caught — or one of the three skip
rules). -/
def processManifest (srcExists : List Char → Bool) (mStem : List Char)
    (entries : List Entry) (m : XNode) : Option Entry :=
  if XNode.tagOf m ≠ manifestTag then none
  else
    match XNode.findChild m (("Type").data),
          XNode.findChild m (("SourceFile").data) with
    | some tEl, some sEl =>
      match XNode.textOf tEl, XNode.textOf sEl with
      | some tTxt, some sTxt =>
        if stripWs tTxt ∈ jsonSkipTypes ∧
           List.isSuffixOf ((".json").data) (stripWs sTxt) = true then none
        else if stripWs tTxt = ("CustomConfig").data ∧
                List.isSuffixOf ((".mobileconfig").data) (stripWs sTxt) = true
          then none
        else if entries.any (fun e => decide (e.relpath = stripWs sTxt)) then none
        else
          some { ref := if srcExists (stripWs sTxt) then pathStem (stripWs sTxt)
                        else mStem,
                 etype := stripWs tTxt,
                 relpath := stripWs sTxt,
                 nameM := nameMeta m,
                 descM := some (descMeta m),
                 settings := subtreeSettings m (stripWs tTxt),
                 count := (subtreeSettings m (stripWs tTxt)).length }
      | _, _ => none
    | _, _ => none

/-- The whole standalone-manifest loop: each manifest sees the records
appended by the earlier ones (the `already` probe runs against the
growing list). -/
def processManifests (srcExists : List Char → Bool)
    (entries : List Entry) : List ((List Char) × XNode) → List Entry
  | [] => entries
  | (st, m) :: rest =>
    match processManifest srcExists st entries m with
    | some e => processManifests srcExists (entries ++ [e]) rest
    | none => processManifests srcExists entries rest

/-! ## Claims about the ValueNormalizer -/

/-- Claim C2: `simplify_value` returns strings of length at most 120
unchanged; longer strings become their first 117 characters followed by
the three-character ellipsis marker `"..."`, so the result has length
exactly 120 and ends with the marker. -/
theorem simplify_value_string_spec (s : List Char) :
    (s.length ≤ 120 → simplify_value (.str s) = .str s) ∧
    (120 < s.length →
      simplify_value (.str s) = .str (s.take 117 ++ ("...").data) ∧
      (s.take 117 ++ ("...").data).length = 120 ∧
      List.isSuffixOf (("...").data) (s.take 117 ++ ("...").data) = true) := by
  refine ⟨fun h => ?_, fun h => ⟨?_, ?_, ?_⟩⟩
  · simp [simplify_value, strTrunc, Nat.not_lt.mpr h]
  · simp [simplify_value, strTrunc, h]
  · have h3 : ("...").data.length = 3 := rfl
    rw [List.length_append, List.length_take, h3]
    omega
  · simp

/-- Witness for `simplify_value_string_spec`: a two-character string is
returned unchanged; a 121-character string is truncated. -/
theorem simplify_value_string_spec_w :
    simplify_value (.str (("ab").data)) = .str (("ab").data) ∧
    simplify_value (.str (List.replicate 121 'a')) =
      .str ((List.replicate 121 'a').take 117 ++ ("...").data) :=
  ⟨(simplify_value_string_spec (("ab").data)).1 (by decide),
   ((simplify_value_string_spec (List.replicate 121 'a')).2 (by decide)).1⟩

/-- Claim C10: `simplify_value` returns a string on every input of the
closed document value type, so the early non-string return of
`simplify_display_value` is unreachable and `simplify_display_value`
always returns the string obtained by running `stripDisplay` on the
normalized value. -/
theorem simplify_display_value_total (key : List Char) (v : JValue) :
    ∃ s, simplify_value v = .str s ∧
      simplify_display_value key v = .str (stripDisplay key s) := by
  cases v <;> exact ⟨_, rfl, rfl⟩

/-- Claim C5 (amended): a value whose `simplify_value` normalization
contains a double-curly-brace placeholder token is returned by
`simplify_display_value` as exactly that normalized form, regardless of
key — in particular unchanged when the value has at most 120
characters. -/
theorem placeholder_redisplayed (key v : List Char)
    (h : hasPlaceholder (strTrunc v) = true) :
    simplify_display_value key (.str v) = .str (strTrunc v) := by
  simp [simplify_display_value, simplify_value, stripDisplay, h]

/-- The 121-character string `"\x7b\x7ba\x7d\x7d" ++ 116 × "x"`. -/
def longPh : List Char :=
  [lbrace, lbrace, 'a', rbrace, rbrace] ++ List.replicate 116 'x'

set_option maxRecDepth 4096 in
/-- Claim C5 counterexample: this 121-character value contains a
placeholder token, yet `simplify_display_value` returns its truncation,
not the value unchanged. -/
theorem placeholder_cex :
    simplify_display_value [] (.str longPh) =
      .str (longPh.take 117 ++ ("...").data) ∧
    longPh.take 117 ++ ("...").data ≠ longPh :=
  ⟨rfl, by decide⟩

/-- Witness for `placeholder_redisplayed`: the five-character value
`"\x7b\x7bm\x7d\x7d"` survives `simplify_display_value` verbatim. -/
theorem placeholder_redisplayed_w :
    simplify_display_value (("k").data)
      (.str [lbrace, lbrace, 'm', rbrace, rbrace]) =
      .str (strTrunc [lbrace, lbrace, 'm', rbrace, rbrace]) :=
  placeholder_redisplayed (("k").data) [lbrace, lbrace, 'm', rbrace, rbrace]
    (by decide)

/-- Claim C4 (amended): `simplify_display_value(key, key + "_" + suffix)`
returns `suffix` whenever the combined value has at most 120 characters,
contains no placeholder token, and does not case-insensitively end in
`"_true"` or `"_false"` (i.e. does not match the boolean-suffix rule). -/
theorem strip_key_prefix (key suffix : List Char)
    (hlen : (key ++ '_' :: suffix).length ≤ 120)
    (hph : hasPlaceholder (key ++ '_' :: suffix) = false)
    (ht : List.isSuffixOf (("_true").data)
            (toLowerList (key ++ '_' :: suffix)) = false)
    (hf : List.isSuffixOf (("_false").data)
            (toLowerList (key ++ '_' :: suffix)) = false) :
    simplify_display_value key (.str (key ++ '_' :: suffix)) = .str suffix := by
  have hval : strTrunc (key ++ '_' :: suffix) = key ++ '_' :: suffix := by
    unfold strTrunc
    exact if_neg (Nat.not_lt.mpr hlen)
  have hpre : List.isPrefixOf (key ++ ['_']) (key ++ '_' :: suffix) = true := by
    have h1 : (key ++ ['_']) <+: (key ++ '_' :: suffix) := ⟨suffix, by simp⟩
    simp only [List.isPrefixOf_iff_prefix]
    exact h1
  have hdrop : (key ++ '_' :: suffix).drop (key.length + 1) = suffix := by
    have h2 : key ++ '_' :: suffix = (key ++ ['_']) ++ suffix := by simp
    rw [h2, List.drop_left' (by simp)]
  simp only [simplify_display_value, simplify_value, hval, stripDisplay, hph,
    Bool.false_eq_true, if_false, boolSuffixLoop, tryBoolSuffix, ht, hf]
  simp [hpre, hdrop]

/-- Claim C4 counterexample: for `key = "k"` and the non-boolean suffix
`"\x7b\x7ba\x7d\x7d"`, the combined value carries a placeholder token and is returned
verbatim instead of being stripped to the suffix. -/
theorem strip_key_prefix_cex :
    simplify_display_value (("k").data)
      (.str ('k' :: '_' :: [lbrace, lbrace, 'a', rbrace, rbrace])) =
      .str ('k' :: '_' :: [lbrace, lbrace, 'a', rbrace, rbrace]) ∧
    ('k' :: '_' :: [lbrace, lbrace, 'a', rbrace, rbrace] : List Char) ≠
      [lbrace, lbrace, 'a', rbrace, rbrace] ∧
    List.isSuffixOf (("_true").data)
      (toLowerList [lbrace, lbrace, 'a', rbrace, rbrace]) = false ∧
    List.isSuffixOf (("_false").data)
      (toLowerList [lbrace, lbrace, 'a', rbrace, rbrace]) = false :=
  ⟨rfl, by decide, by decide, by decide⟩

/-- Witness for `strip_key_prefix` at `key = "acme"`, `suffix = "on"`. -/
theorem strip_key_prefix_w :
    simplify_display_value (("acme").data)
      (.str (("acme").data ++ '_' :: ("on").data)) = .str (("on").data) :=
  strip_key_prefix (("acme").data) (("on").data)
    (by decide) (by decide) (by decide) (by decide)

/-- A value cannot case-insensitively end in both boolean suffixes: ending
in `"_false"` excludes ending in `"_true"` (needed because the source
loop tries `"_true"` first). -/
theorem no_true_suffix_of_false_suffix (l : List Char)
    (h : List.isSuffixOf (("_false").data) l = true) :
    List.isSuffixOf (("_true").data) l = false := by
  rw [← Bool.not_eq_true]
  simp only [List.isSuffixOf_iff_suffix] at h ⊢
  intro ht
  have h5 : ("_true").data <:+ ("_false").data :=
    List.suffix_of_suffix_length_le ht h (by decide)
  exact absurd h5 (by decide)

/-- Claim C3: the boolean-suffix mapping.  The two concrete examples from
the spec hold, and in general, for a normalized placeholder-free string
value that case-insensitively ends in `"_true"` (resp. `"_false"`), if
the portion preceding the suffix equals the key or passes the
prefix/suffix containment check against the key's final dot-segment, the
result is the literal `"True"` (resp. `"False"`). -/
theorem bool_suffix_mapping (key val prefixPart : List Char) :
    (simplify_display_value (("com.acme.x").data)
      (.str (("com.acme.x_true").data)) = .str (("True").data)) ∧
    (simplify_display_value (("com.acme.x").data)
      (.str (("com.acme.x_false").data)) = .str (("False").data)) ∧
    (hasPlaceholder val = false →
      List.isSuffixOf (("_true").data) (toLowerList val) = true →
      prefixPart = val.take (val.length - 5) →
      (prefixPart = key ∨
        List.isPrefixOf (lastSegment prefixPart) key = true ∨
        List.isSuffixOf (lastSegment key) prefixPart = true) →
      stripDisplay key val = ("True").data) ∧
    (hasPlaceholder val = false →
      List.isSuffixOf (("_false").data) (toLowerList val) = true →
      prefixPart = val.take (val.length - 6) →
      (prefixPart = key ∨
        List.isPrefixOf (lastSegment prefixPart) key = true ∨
        List.isSuffixOf (lastSegment key) prefixPart = true) →
      stripDisplay key val = ("False").data) := by
  have tryPos : ∀ k v suf mp, List.isSuffixOf suf (toLowerList v) = true →
      (v.take (v.length - suf.length) = k ∨
        List.isPrefixOf (lastSegment (v.take (v.length - suf.length))) k = true ∨
        List.isSuffixOf (lastSegment k) (v.take (v.length - suf.length)) = true) →
      tryBoolSuffix k v suf mp = some mp := by
    intro k v suf mp hsuf hcond
    unfold tryBoolSuffix
    rw [if_pos hsuf]
    by_cases hb : (List.isPrefixOf (lastSegment (v.take (v.length - suf.length))) k
        || List.isSuffixOf (lastSegment k) (v.take (v.length - suf.length))) = true
    · rw [if_pos hb]
    · rw [if_neg hb]
      rcases hcond with hek | hc1 | hc2
      · rw [if_pos hek]
      · exact absurd (by rw [hc1]; simp) hb
      · exact absurd (by rw [hc2]; simp) hb
  have loopTrue : ∀ k v, List.isSuffixOf (("_true").data) (toLowerList v) = true →
      (v.take (v.length - 5) = k ∨
        List.isPrefixOf (lastSegment (v.take (v.length - 5))) k = true ∨
        List.isSuffixOf (lastSegment k) (v.take (v.length - 5)) = true) →
      boolSuffixLoop k v = some (("True").data) := by
    intro k v hsuf hcond
    unfold boolSuffixLoop
    rw [tryPos k v (("_true").data) (("True").data) hsuf hcond]
  have loopFalse : ∀ k v, List.isSuffixOf (("_false").data) (toLowerList v) = true →
      (v.take (v.length - 6) = k ∨
        List.isPrefixOf (lastSegment (v.take (v.length - 6))) k = true ∨
        List.isSuffixOf (lastSegment k) (v.take (v.length - 6)) = true) →
      boolSuffixLoop k v = some (("False").data) := by
    intro k v hsuf hcond
    have hnt : List.isSuffixOf (("_true").data) (toLowerList v) = false :=
      no_true_suffix_of_false_suffix _ hsuf
    have h1 : tryBoolSuffix k v (("_true").data) (("True").data) = none := by
      unfold tryBoolSuffix
      rw [hnt]
      simp
    unfold boolSuffixLoop
    rw [h1, tryPos k v (("_false").data) (("False").data) hsuf hcond]
  have stripOf : ∀ k v mp, hasPlaceholder v = false →
      boolSuffixLoop k v = some mp → stripDisplay k v = mp := by
    intro k v mp hph hloop
    unfold stripDisplay
    rw [hph, hloop]
    simp
  refine ⟨rfl, rfl, fun hph hsuf hp hcond => ?_, fun hph hsuf hp hcond => ?_⟩
  · exact stripOf key val _ hph (loopTrue key val hsuf (hp ▸ hcond))
  · exact stripOf key val _ hph (loopFalse key val hsuf (hp ▸ hcond))

/-- Witness for `bool_suffix_mapping`: both general branches fire on
concrete inputs (the `"_false"` case with the containment check against
the key's last dot-segment). -/
theorem bool_suffix_mapping_w :
    stripDisplay (("com.acme.x").data) (("com.acme.x_true").data) =
      ("True").data ∧
    stripDisplay (("a.b").data) (("b_false").data) = ("False").data :=
  ⟨(bool_suffix_mapping (("com.acme.x").data) (("com.acme.x_true").data)
      (("com.acme.x").data)).2.2.1 (by decide) (by decide) (by decide)
      (Or.inr (Or.inr (by decide))),
   (bool_suffix_mapping (("a.b").data) (("b_false").data) (("b").data)).2.2.2
      (by decide) (by decide) (by decide) (Or.inr (Or.inr (by decide)))⟩

/-! ## Claim about the final merge (C1) -/

/-- `leChars` is total (host string comparison is a linear order). -/
theorem leChars_total (a : List Char) :
    ∀ b, leChars a b = true ∨ leChars b a = true := by
  induction a with
  | nil => exact fun b => Or.inl rfl
  | cons x xs ih =>
    intro b
    cases b with
    | nil => exact Or.inr rfl
    | cons y ys =>
      by_cases h1 : x < y
      · exact Or.inl (by unfold leChars; rw [if_pos h1])
      · by_cases h2 : y < x
        · exact Or.inr (by unfold leChars; rw [if_pos h2])
        · rcases ih ys with h | h
          · exact Or.inl (by unfold leChars; rw [if_neg h1, if_neg h2]; exact h)
          · exact Or.inr (by unfold leChars; rw [if_neg h2, if_neg h1]; exact h)

/-- `leChars` is transitive. -/
theorem leChars_trans (a : List Char) :
    ∀ b c, leChars a b = true → leChars b c = true → leChars a c = true := by
  induction a with
  | nil => intro b c _ _; rfl
  | cons x xs ih =>
    intro b c h1 h2
    cases b with
    | nil => simp [leChars] at h1
    | cons y ys =>
      cases c with
      | nil => simp [leChars] at h2
      | cons z zs =>
        by_cases hxy : x < y
        · by_cases hyz : y < z
          · unfold leChars; rw [if_pos (lt_trans hxy hyz)]
          · by_cases hzy : z < y
            · unfold leChars at h2; rw [if_neg hyz, if_pos hzy] at h2
              simp at h2
            · have hyzeq : y = z := le_antisymm (not_lt.mp hzy) (not_lt.mp hyz)
              subst hyzeq
              unfold leChars; rw [if_pos hxy]
        · by_cases hyx : y < x
          · unfold leChars at h1; rw [if_neg hxy, if_pos hyx] at h1
            simp at h1
          · have hxyeq : x = y := le_antisymm (not_lt.mp hyx) (not_lt.mp hxy)
            subst hxyeq
            unfold leChars at h1 ⊢
            rw [if_neg hxy, if_neg hyx] at h1
            by_cases hxz : x < z
            · rw [if_pos hxz]
            · by_cases hzx : z < x
              · unfold leChars at h2; rw [if_neg hxz, if_pos hzx] at h2
                simp at h2
              · rw [if_neg hxz, if_neg hzx]
                unfold leChars at h2
                rw [if_neg hxz, if_neg hzx] at h2
                exact ih ys zs h1 h2

instance : IsTotal Entry (fun a b => leChars a.ref b.ref = true) :=
  ⟨fun a b => leChars_total a.ref b.ref⟩

instance : IsTrans Entry (fun a b => leChars a.ref b.ref = true) :=
  ⟨fun a b c => leChars_trans a.ref b.ref c.ref⟩

/-- The deduplication pass emits pairwise-distinct identity triples, none
of which was in `seen`. -/
theorem dedup_nodup (l : List Entry) :
    ∀ seen, ((dedupEntries seen l).map entryKey).Nodup ∧
      ∀ k ∈ (dedupEntries seen l).map entryKey, k ∉ seen := by
  induction l with
  | nil => exact fun seen => ⟨by simp [dedupEntries], by simp [dedupEntries]⟩
  | cons e rest ih =>
    intro seen
    by_cases h : entryKey e ∈ seen
    · simp only [dedupEntries, if_pos h]
      exact ih seen
    · simp only [dedupEntries, if_neg h]
      obtain ⟨ihn, ihs⟩ := ih (entryKey e :: seen)
      refine ⟨?_, ?_⟩
      · rw [List.map_cons, List.nodup_cons]
        exact ⟨fun hmem => (ihs _ hmem) (List.mem_cons_self _ _), ihn⟩
      · intro k hk
        rw [List.map_cons, List.mem_cons] at hk
        rcases hk with rfl | hk
        · exact h
        · exact fun hks => (ihs k hk) (List.mem_cons_of_mem _ hks)

/-- Every survivor of the deduplication pass is the first input entry
bearing its identity triple. -/
theorem dedup_first (l : List Entry) :
    ∀ seen e, e ∈ dedupEntries seen l →
      entryKey e ∉ seen ∧
      l.find? (fun x => decide (entryKey x = entryKey e)) = some e := by
  induction l with
  | nil => intro seen e he; simp [dedupEntries] at he
  | cons e' rest ih =>
    intro seen e he
    by_cases h : entryKey e' ∈ seen
    · simp only [dedupEntries, if_pos h] at he
      obtain ⟨hns, hf⟩ := ih seen e he
      refine ⟨hns, ?_⟩
      rw [List.find?_cons_of_neg]
      · exact hf
      · simp only [decide_eq_true_eq]
        intro heq
        exact hns (heq ▸ h)
    · simp only [dedupEntries, if_neg h] at he
      rcases List.mem_cons.mp he with rfl | he
      · exact ⟨h, by rw [List.find?_cons_of_pos _ (by simp)]⟩
      · obtain ⟨hns, hf⟩ := ih _ e he
        have hne : entryKey e ≠ entryKey e' :=
          fun heq => hns (heq ▸ List.mem_cons_self _ _)
        refine ⟨fun hs => hns (List.mem_cons_of_mem _ hs), ?_⟩
        rw [List.find?_cons_of_neg]
        · exact hf
        · simp only [decide_eq_true_eq]
          exact fun heq => hne heq.symm

/-- Every input entry's identity triple is represented among the
survivors (or was already in `seen`). -/
theorem dedup_cover (l : List Entry) :
    ∀ seen x, x ∈ l → entryKey x ∈ seen ∨
      ∃ e, e ∈ dedupEntries seen l ∧ entryKey e = entryKey x := by
  induction l with
  | nil => intro seen x hx; simp at hx
  | cons e' rest ih =>
    intro seen x hx
    by_cases h : entryKey e' ∈ seen
    · simp only [dedupEntries, if_pos h]
      rcases List.mem_cons.mp hx with rfl | hx
      · exact Or.inl h
      · exact ih seen x hx
    · simp only [dedupEntries, if_neg h]
      rcases List.mem_cons.mp hx with heq | hx
      · exact Or.inr ⟨e', List.mem_cons_self _ _, by rw [heq]⟩
      · rcases ih (entryKey e' :: seen) x hx with hin | ⟨e, he, hk⟩
        · rcases List.mem_cons.mp hin with heq2 | hin
          · exact Or.inr ⟨e', List.mem_cons_self _ _, heq2.symm⟩
          · exact Or.inl hin
        · exact Or.inr ⟨e, List.mem_cons_of_mem _ he, hk⟩

/-- Claim C1: the final merge of `build_entries` deduplicates by the
`(ref, type, relpath)` identity triple, keeping for each triple exactly
the first entry produced, and returns the list sorted ascending by `ref`
(lexicographic on the code points); consequently identity triples in the
result are unique. -/
theorem build_entries_final_merge (entries : List Entry) :
    ((finalMerge entries).map entryKey).Nodup ∧
    List.Sorted (fun a b => leChars a.ref b.ref = true) (finalMerge entries) ∧
    (∀ e ∈ finalMerge entries,
      entries.find? (fun x => decide (entryKey x = entryKey e)) = some e) ∧
    (∀ x ∈ entries, ∃ e ∈ finalMerge entries, entryKey e = entryKey x) := by
  have hperm : List.Perm (finalMerge entries) (dedupEntries [] entries) :=
    List.perm_insertionSort _ _
  refine ⟨?_, ?_, ?_, ?_⟩
  · exact ((hperm.map entryKey).nodup_iff).mpr (dedup_nodup entries []).1
  · exact List.sorted_insertionSort _ _
  · intro e he
    exact (dedup_first entries [] e (hperm.mem_iff.mp he)).2
  · intro x hx
    rcases dedup_cover entries [] x hx with hin | ⟨e, he, hk⟩
    · simp at hin
    · exact ⟨e, hperm.mem_iff.mpr he, hk⟩

/-- A concrete entry with reference `"a"`. -/
def entA : Entry :=
  { ref := ("a").data, etype := ("T").data, relpath := ("p").data,
    nameM := none, descM := none, settings := [], count := 0 }

/-- A concrete entry with reference `"b"`. -/
def entB : Entry :=
  { ref := ("b").data, etype := ("T").data, relpath := ("q").data,
    nameM := none, descM := none, settings := [], count := 0 }

/-- A duplicate of `entB`'s identity triple with different attributes. -/
def entB2 : Entry :=
  { ref := ("b").data, etype := ("T").data, relpath := ("q").data,
    nameM := none, descM := none, settings := [], count := 5 }

/-- A concrete unsorted entry list with a duplicated identity triple. -/
def ents0 : List Entry := [entB, entA, entB2]

/-- Witness for `build_entries_final_merge` on `ents0`. -/
theorem build_entries_final_merge_w :
    List.Sorted (fun a b => leChars a.ref b.ref = true) (finalMerge ents0) ∧
    ∃ e ∈ finalMerge ents0, entryKey e = entryKey entB :=
  ⟨(build_entries_final_merge ents0).2.1,
   (build_entries_final_merge ents0).2.2.2 entB (List.mem_cons_self _ _)⟩

/-! ## Claim about the settings-catalog extractor (C6) -/

/-- Each well-formed collection entry (dict with a non-`None` value) at
position `i` contributes an output pair under the bracketed index
`k + i`, where `k` is the enumeration offset. -/
theorem collItems_mem (s : List Char) :
    ∀ (items : JArr) (k i : Nat) (ef : JObj) (v : JValue),
      JArr.get? items i = some (.obj ef) →
      JObj.lookup ef (("value").data) = some v →
      v.isNull = false →
      (s ++ bracketIdx (k + i), simplify_display_value s v) ∈ collItems s items k
  | .nil, k, i, ef, v, h1, _, _ => by simp [JArr.get?] at h1
  | .cons hd tl, k, 0, ef, v, h1, h2, h3 => by
    simp only [JArr.get?, Option.some.injEq] at h1
    subst h1
    simp only [collItems, h2, h3, Nat.add_zero]
    simp
  | .cons hd tl, k, i + 1, ef, v, h1, h2, h3 => by
    simp only [JArr.get?] at h1
    simp only [collItems]
    apply List.mem_append_right
    have heq : k + (i + 1) = (k + 1) + i := by omega
    rw [heq]
    exact collItems_mem s tl (k + 1) i ef v h1 h2 h3

/-- Claim C6: a settings-catalog node that carries a setting-definition
identifier and exposes both a well-formed choice-value container and a
collection container with at least one well-formed entry yields at least
two output pairs from `extract_settings_catalog` — the carriers are
inspected independently, not exclusively — and every well-formed
collection entry is emitted with the identifier suffixed by its
zero-based bracketed position. -/
theorem settings_catalog_carriers (fs : JObj) (s : List Char) (cb : JObj)
    (cv : JValue) (items : JArr) (j : Nat) (ef0 : JObj) (v0 : JValue)
    (hsd : fs.lookup (("settingDefinitionId").data) = some (.str s))
    (hs : s ≠ [])
    (hch : fs.lookup (("choiceSettingValue").data) = some (.obj cb))
    (hcv : cb.lookup (("value").data) = some cv)
    (hcvn : cv.isNull = false)
    (hcol : fs.lookup (("simpleSettingCollectionValue").data) = some (.arr items))
    (hj : JArr.get? items j = some (.obj ef0))
    (hv0 : ef0.lookup (("value").data) = some v0)
    (hv0n : v0.isNull = false) :
    2 ≤ (extract_settings_catalog
          (.cons (("settings").data) (.arr (.cons (.obj fs) .nil)) .nil)).length ∧
    (s, simplify_display_value s cv) ∈ extract_settings_catalog
          (.cons (("settings").data) (.arr (.cons (.obj fs) .nil)) .nil) ∧
    ∀ i ef v, JArr.get? items i = some (.obj ef) →
      ef.lookup (("value").data) = some v → v.isNull = false →
      (s ++ bracketIdx i, simplify_display_value s v) ∈ extract_settings_catalog
          (.cons (("settings").data) (.arr (.cons (.obj fs) .nil)) .nil) := by
  have hdoc : extract_settings_catalog
      (.cons (("settings").data) (.arr (.cons (.obj fs) .nil)) .nil) =
      carrierPairs fs ++ walkObj fs := by
    simp [extract_settings_catalog, JObj.lookup, walk, walkArr]
  have hcarrier : carrierPairs fs =
      choicePart fs s ++ simplePart fs s ++ collectionPart fs s := by
    simp only [carrierPairs, hsd]
    rw [if_neg hs]
  have hchoiceEq : choicePart fs s = [(s, simplify_display_value s cv)] := by
    simp [choicePart, hch, hcv, hcvn]
  have hcollEq : collectionPart fs s = collItems s items 0 := by
    simp [collectionPart, hcol]
  have hmemColl : ∀ i ef v, JArr.get? items i = some (.obj ef) →
      ef.lookup (("value").data) = some v → v.isNull = false →
      (s ++ bracketIdx i, simplify_display_value s v) ∈ collItems s items 0 := by
    intro i ef v h1 h2 h3
    have h := collItems_mem s items 0 i ef v h1 h2 h3
    rwa [Nat.zero_add] at h
  refine ⟨?_, ?_, ?_⟩
  · rw [hdoc, hcarrier, hchoiceEq, hcollEq]
    have h1 : 1 ≤ (collItems s items 0).length :=
      List.length_pos.mpr (List.ne_nil_of_mem (hmemColl j ef0 v0 hj hv0 hv0n))
    simp only [List.length_append, List.length_cons, List.length_nil]
    omega
  · rw [hdoc, hcarrier, hchoiceEq]
    exact List.mem_append_left _ (List.mem_append_left _
      (List.mem_append_left _ (List.mem_singleton_self _)))
  · intro i ef v h1 h2 h3
    rw [hdoc, hcarrier, hcollEq]
    exact List.mem_append_left _ (List.mem_append_right _ (hmemColl i ef v h1 h2 h3))

/-- A concrete settings-catalog node exposing a choice carrier and a
one-entry collection carrier. -/
def fs6 : JObj :=
  .cons (("settingDefinitionId").data) (.str (("a").data))
  (.cons (("choiceSettingValue").data)
    (.obj (.cons (("value").data) (.str (("x").data)) .nil))
  (.cons (("simpleSettingCollectionValue").data)
    (.arr (.cons (.obj (.cons (("value").data) (.str (("y").data)) .nil)) .nil))
    .nil))

/-- Witness for `settings_catalog_carriers` on the node `fs6`. -/
theorem settings_catalog_carriers_w :
    2 ≤ (extract_settings_catalog
          (.cons (("settings").data) (.arr (.cons (.obj fs6) .nil)) .nil)).length ∧
    ((("a").data, simplify_display_value (("a").data) (.str (("x").data))) ∈
      extract_settings_catalog
        (.cons (("settings").data) (.arr (.cons (.obj fs6) .nil)) .nil)) :=
  ⟨(settings_catalog_carriers fs6 (("a").data) _ _ _ 0 _ _
      rfl (by decide) rfl rfl rfl rfl rfl rfl rfl).1,
   (settings_catalog_carriers fs6 (("a").data) _ _ _ 0 _ _
      rfl (by decide) rfl rfl rfl rfl rfl rfl rfl).2.1⟩

/-! ## Claim about the compliance-policy extractor (C7) -/

/-- A compliance policy with one rule whose action-configuration list is
present but empty. -/
def emptyRuleDoc : JObj :=
  .cons sAFRKey (.arr (.cons (.obj
    (.cons (("ruleName").data) (.str (("r").data))
    (.cons (("scheduledActionConfigurations").data) (.arr .nil) .nil))) .nil))
  .nil

/-- Claim C7 counterexample: the rule of `emptyRuleDoc` has zero action
configurations, so the claim calls for a summary pair with value `"0"`;
the source guards rule output behind a truthiness check on the list and
emits nothing at all. -/
theorem compliance_empty_rule_cex :
    extract_compliance_policy emptyRuleDoc = [] ∧
    (sAFRKey ++ '.' :: (("r").data) ++ (".actionCount").data,
      JValue.str (("0").data)) ∉ extract_compliance_policy emptyRuleDoc := by
  refine ⟨rfl, ?_⟩
  rw [show extract_compliance_policy emptyRuleDoc = [] from rfl]
  simp

/-- Abstract description of a rule: its name and its list of
`(actionType, gracePeriodHours)` configurations. -/
abbrev RuleSpec := (List Char) × List ((List Char) × Int)

/-- Build the JSON object of one action configuration. -/
def actionObjOf : (List Char) × Int → JValue
  | (a, g) => .obj (.cons (("actionType").data) (.str a)
      (.cons (("gracePeriodHours").data) (.num g) .nil))

/-- Build the JSON object of one rule. -/
def ruleObjOf : RuleSpec → JValue
  | (n, acts) => .obj (.cons (("ruleName").data) (.str n)
      (.cons (("scheduledActionConfigurations").data)
        (.arr (JArr.ofList (acts.map actionObjOf))) .nil))

/-- Build a compliance-policy document holding exactly the given rules. -/
def docOfRules (rs : List RuleSpec) : JObj :=
  .cons sAFRKey (.arr (JArr.ofList (rs.map ruleObjOf))) .nil

/-- Modelled from the spec: the pairs expected per action configuration,
`(key.rule.action_i, "type (grace: Gh)")` in order. -/
def specActionPairs (n : List Char) : List ((List Char) × Int) → Nat → List Setting
  | [], _ => []
  | (a, g) :: rest, i =>
    (sAFRKey ++ '.' :: n ++ (".action_").data ++ natStr i,
     .str (a ++ (" (grace: ").data ++ intStr g ++ ("h)").data)) ::
    specActionPairs n rest (i + 1)

/-- Modelled from the spec, amended by the counterexample: for each rule
with at least one action configuration, first the `actionCount` summary
pair, then one pair per action; a rule with no action configurations
contributes nothing. -/
def specRulePairs : List RuleSpec → List Setting
  | [] => []
  | (n, acts) :: rest =>
    (if acts = [] then []
     else (sAFRKey ++ '.' :: n ++ (".actionCount").data,
           .str (natStr acts.length)) :: specActionPairs n acts 0) ++
    specRulePairs rest

/-- `JArr.ofList` preserves length. -/
theorem JArr.length_ofList (l : List JValue) :
    JArr.length (JArr.ofList l) = l.length := by
  induction l with
  | nil => rfl
  | cons x xs ih => simp [JArr.ofList, JArr.length, ih]; omega

/-- The action loop on a built configuration list produces exactly the
expected pairs. -/
theorem actionPairs_ofList (n : List Char) (acts : List ((List Char) × Int)) :
    ∀ i, actionPairs sAFRKey n (JArr.ofList (acts.map actionObjOf)) i =
      specActionPairs n acts i := by
  induction acts with
  | nil => intro i; rfl
  | cons ag rest ih =>
    intro i
    obtain ⟨a, g⟩ := ag
    have hL : actionPairs sAFRKey n (JArr.ofList (((a, g) :: rest).map actionObjOf)) i =
        (sAFRKey ++ '.' :: n ++ (".action_").data ++ natStr i,
         JValue.str (a ++ (" (grace: ").data ++ intStr g ++ ("h)").data)) ::
        actionPairs sAFRKey n (JArr.ofList (rest.map actionObjOf)) (i + 1) := rfl
    rw [hL, ih]
    rfl

/-- The rule loop on a built rule list produces exactly the expected
pairs. -/
theorem rulePairs_ofList (rs : List RuleSpec) :
    ∀ i, rulePairs sAFRKey (JArr.ofList (rs.map ruleObjOf)) i =
      specRulePairs rs := by
  induction rs with
  | nil => intro i; rfl
  | cons r rest ih =>
    intro i
    obtain ⟨n, acts⟩ := r
    cases acts with
    | nil =>
      have hL : rulePairs sAFRKey (JArr.ofList (((n, ([] : List ((List Char) × Int))) :: rest).map ruleObjOf)) i =
          [] ++ rulePairs sAFRKey (JArr.ofList (rest.map ruleObjOf)) (i + 1) := rfl
      rw [hL, ih]
      rfl
    | cons a as =>
      have hL : rulePairs sAFRKey (JArr.ofList (((n, a :: as) :: rest).map ruleObjOf)) i =
          ((sAFRKey ++ '.' :: n ++ (".actionCount").data,
            JValue.str (natStr (JArr.length (JArr.ofList ((a :: as).map actionObjOf))))) ::
           actionPairs sAFRKey n (JArr.ofList ((a :: as).map actionObjOf)) 0) ++
          rulePairs sAFRKey (JArr.ofList (rest.map ruleObjOf)) (i + 1) := rfl
      rw [hL, ih, JArr.length_ofList, List.length_map, actionPairs_ofList]
      rfl

/-- Claim C7 (amended): on a compliance-policy document whose
`scheduledActionsForRule` list holds the given rules,
`extract_compliance_policy` emits, for each rule in order with at least
one action configuration, first the `actionCount` summary pair, then one
pair per action configuration of the form `"type (grace: Gh)"`; a rule
with an empty action-configuration list contributes nothing. -/
theorem compliance_policy_rules (rs : List RuleSpec) :
    extract_compliance_policy (docOfRules rs) = specRulePairs rs := by
  simp only [docOfRules, extract_compliance_policy]
  rw [if_neg (by decide : ¬ sAFRKey ∈ ecpIgnoreKeys)]
  simp [rulePairs_ofList rs 0]

/-! ## Claim about the artifact classifier (C8) -/

/-- Claim C8 counterexample: `"readme.json"` does not map to any known
three-letter prefix, yet `classify_type` returns `"Policy"` — neither the
generic `"Unknown"` nor the custom-config classification. -/
theorem classify_type_cex :
    classify_type (("readme.json").data) = ("Policy").data ∧
    ("Policy").data ≠ ("Unknown").data ∧
    ("Policy").data ≠ ("CustomConfig").data :=
  ⟨rfl, by decide, by decide⟩

/-- Claim C8 (amended): `"Unknown"` is returned exactly for names that
match the reference pattern (three lowercase letters, dash, three
lowercase letters, dash, three digits) with a prefix outside the fixed
mapping, regardless of extension; names not matching the pattern fall
back to `"CustomConfig"` for `.mobileconfig` and to `"Policy"`
otherwise; matching names with a mapped prefix return the mapped
classification. -/
theorem classify_type_spec (name p : List Char) :
    (refMatch name = some p → classify_type name = typeMapping p) ∧
    (refMatch name = some p → p ∉ knownPrefixes →
      classify_type name = ("Unknown").data) ∧
    (refMatch name = none →
      List.isSuffixOf ((".mobileconfig").data) name = true →
      classify_type name = ("CustomConfig").data) ∧
    (refMatch name = none →
      List.isSuffixOf ((".mobileconfig").data) name = false →
      classify_type name = ("Policy").data) ∧
    typeMapping (("pol").data) = ("Policy").data ∧
    typeMapping (("cfg").data) = ("CustomConfig").data ∧
    typeMapping (("cmp").data) = ("Compliance").data ∧
    typeMapping (("scr").data) = ("Script").data ∧
    typeMapping (("cat").data) = ("CustomAttribute").data ∧
    typeMapping (("app").data) = ("Package").data := by
  have hunk : ∀ q, q ∉ knownPrefixes → typeMapping q = ("Unknown").data := by
    intro q hq
    simp only [knownPrefixes, List.mem_cons, List.not_mem_nil, or_false,
      not_or] at hq
    obtain ⟨h1, h2, h3, h4, h5, h6⟩ := hq
    simp only [typeMapping, if_neg h1, if_neg h2, if_neg h3, if_neg h4,
      if_neg h5, if_neg h6]
  refine ⟨fun hm => ?_, fun hm hp => ?_, fun hm hs => ?_, fun hm hs => ?_,
    rfl, rfl, rfl, rfl, rfl, rfl⟩
  · rw [classify_type, hm]
  · rw [classify_type, hm]
    exact hunk p hp
  · rw [classify_type, hm]
    show (if List.isSuffixOf ((".mobileconfig").data) name = true
          then ("CustomConfig").data else ("Policy").data) = ("CustomConfig").data
    rw [if_pos hs]
  · rw [classify_type, hm]
    show (if List.isSuffixOf ((".mobileconfig").data) name = true
          then ("CustomConfig").data else ("Policy").data) = ("Policy").data
    rw [if_neg (by simp [hs])]

/-- Witness for `classify_type_spec`: an unmapped matching prefix yields
`"Unknown"`, a mapped prefix yields its classification, a non-matching
`.mobileconfig` name yields `"CustomConfig"`, a non-matching other name
yields `"Policy"`. -/
theorem classify_type_spec_w :
    classify_type (("xyz-abc-001.json").data) = ("Unknown").data ∧
    classify_type (("pol-mac-001.json").data) = typeMapping (("pol").data) ∧
    classify_type (("profile.mobileconfig").data) = ("CustomConfig").data ∧
    classify_type (("notes.txt").data) = ("Policy").data :=
  ⟨(classify_type_spec (("xyz-abc-001.json").data) (("xyz").data)).2.1
      rfl (by decide),
   (classify_type_spec (("pol-mac-001.json").data) (("pol").data)).1 rfl,
   (classify_type_spec (("profile.mobileconfig").data) []).2.2.1 rfl (by decide),
   (classify_type_spec (("notes.txt").data) []).2.2.2.1 rfl (by decide)⟩

/-! ## Claim about manifest-contributed artifacts (C9) -/

/-- A manifest with an unrecognized artifact type pointing at a shell
script. -/
def polManifest : XNode :=
  .mk manifestTag none
    [.mk (("Type").data) (some (("Policy").data)) [],
     .mk (("SourceFile").data) (some (("scripts/foo.sh").data)) []]

/-- Claim C9 counterexample: a `MacIntuneManifest` whose `Type` is
`"Policy"` and whose `SourceFile` is `"scripts/foo.sh"` passes every skip
rule and contributes an artifact of type `"Policy"` — not one of the
manifest-only kinds Script/Package/CustomAttribute. -/
theorem manifest_nonkind_cex :
    (processManifest (fun _ => false) (("foo").data) [] polManifest).map
      (fun e => e.etype) = some (("Policy").data) ∧
    ("Policy").data ∉ manifestOnlyTypes :=
  ⟨rfl, by decide⟩

/-- Claim C9 (amended): an artifact the manifest loop contributes is never
one whose relative path was already present, never a JSON-backed type
(`Policy`/`CustomConfig`/`Compliance`) pointing at a `.json` source, and
never `CustomConfig` pointing at a `.mobileconfig` source; its settings
are empty unless its type is one of the manifest-only kinds Script,
Package, CustomAttribute (whose named subtree is flattened) — but
manifests of other types may still contribute a settings-free
artifact. -/
theorem manifest_entry_spec (srcExists : List Char → Bool) (mStem : List Char)
    (entries : List Entry) (m : XNode) (e : Entry)
    (h : processManifest srcExists mStem entries m = some e) :
    entries.any (fun x => decide (x.relpath = e.relpath)) = false ∧
    (e.etype ∈ jsonSkipTypes →
      List.isSuffixOf ((".json").data) e.relpath = false) ∧
    (e.etype = ("CustomConfig").data →
      List.isSuffixOf ((".mobileconfig").data) e.relpath = false) ∧
    (e.etype ∉ manifestOnlyTypes → e.settings = []) := by
  unfold processManifest at h
  split at h
  · exact Option.noConfusion h
  · split at h <;> try exact Option.noConfusion h
    split at h <;> try exact Option.noConfusion h
    rename_i tEl sEl _ _ tTxt sTxt _ _
    split at h
    · exact Option.noConfusion h
    · rename_i h1
      split at h
      · exact Option.noConfusion h
      · rename_i h2
        split at h
        · exact Option.noConfusion h
        · rename_i h3
          injection h with h
          subst h
          rw [Bool.not_eq_true] at h3
          refine ⟨h3, fun hty => ?_, fun hty => ?_, fun hty => ?_⟩
          · rw [← Bool.not_eq_true]
            intro hsuf
            exact h1 ⟨hty, hsuf⟩
          · rw [← Bool.not_eq_true]
            intro hsuf
            exact h2 ⟨hty, hsuf⟩
          · have hty2 : stripWs tTxt ∉ manifestOnlyTypes := hty
            show subtreeSettings _ (stripWs tTxt) = []
            rw [subtreeSettings, if_neg hty2]

/-- A manifest of an unrecognized kind used by the witness. -/
def fooManifest : XNode :=
  .mk manifestTag none
    [.mk (("Type").data) (some (("Foo").data)) [],
     .mk (("SourceFile").data) (some (("x.bin").data)) []]

/-- The entry `fooManifest` contributes over an empty aggregate. -/
def fooEntry : Entry :=
  { ref := ("m").data, etype := ("Foo").data, relpath := ("x.bin").data,
    nameM := none, descM := some [], settings := [], count := 0 }

/-- Witness for `manifest_entry_spec` on `fooManifest`: the contributed
entry collides with nothing and, its type being outside the manifest-only
kinds, carries no settings. -/
theorem manifest_entry_spec_w :
    ([] : List Entry).any (fun x => decide (x.relpath = fooEntry.relpath)) = false ∧
    fooEntry.settings = [] := by
  have h := manifest_entry_spec (fun _ => false) (("m").data) [] fooManifest
    fooEntry rfl
  exact ⟨h.1, h.2.2.2 (by decide)⟩
